import Mathlib

/-!
# Verification of the ShuMao Chinese dictionary core

Shallow embedding of the two source files of the repository:

* `convert.py` — the pinyin transliterator `decode_pinyin` and the
  field derivations of `parse_line`;
* `app.py` — the `search` pipeline: strategy collection, merging,
  scoring/sorting, pagination, and character-breakdown enrichment.

Machine strings are embedded as `String`/`List Char`; SQLite integer flags
(`has_examples`, `has_stroke`) as `Bool` (the code only stores 0/1 and uses
them in boolean positions); the FTS relevance rank as `Int` (only its order
matters to the code); fallible operations as `Except`/`Option`.
-/

namespace ShuMao

/-! ### Character helpers

Python string methods, restricted to the character repertoire this program
manipulates (ASCII, `ü`/`Ü`, and the tone-marked vowels).  On every character
that can actually reach these helpers in the embedded code they agree with
the CPython behaviour. -/

/-- Python `str.lower` on one character: ASCII letters via `Char.toLower`,
plus the non-ASCII letters appearing in this program (`Ü` and the
tone-marked vowels). Anything else is returned unchanged. -/
def pyLower (c : Char) : Char :=
  if c = 'Ü' then 'ü'
  else if c = 'Ā' then 'ā' else if c = 'Á' then 'á'
  else if c = 'Ǎ' then 'ǎ' else if c = 'À' then 'à'
  else if c = 'Ē' then 'ē' else if c = 'É' then 'é'
  else if c = 'Ě' then 'ě' else if c = 'È' then 'è'
  else if c = 'Ī' then 'ī' else if c = 'Í' then 'í'
  else if c = 'Ǐ' then 'ǐ' else if c = 'Ì' then 'ì'
  else if c = 'Ō' then 'ō' else if c = 'Ó' then 'ó'
  else if c = 'Ǒ' then 'ǒ' else if c = 'Ò' then 'ò'
  else if c = 'Ū' then 'ū' else if c = 'Ú' then 'ú'
  else if c = 'Ǔ' then 'ǔ' else if c = 'Ù' then 'ù'
  else if c = 'Ǖ' then 'ǖ' else if c = 'Ǘ' then 'ǘ'
  else if c = 'Ǚ' then 'ǚ' else if c = 'Ǜ' then 'ǜ'
  else c.toLower

/-- Python `str.upper` on one character, for the characters it is applied to
in `decode_pinyin` (the lowercase tone-marked vowels). -/
def pyUpper (c : Char) : Char :=
  if c = 'ā' then 'Ā' else if c = 'á' then 'Á'
  else if c = 'ǎ' then 'Ǎ' else if c = 'à' then 'À'
  else if c = 'ē' then 'Ē' else if c = 'é' then 'É'
  else if c = 'ě' then 'Ě' else if c = 'è' then 'È'
  else if c = 'ī' then 'Ī' else if c = 'í' then 'Í'
  else if c = 'ǐ' then 'Ǐ' else if c = 'ì' then 'Ì'
  else if c = 'ō' then 'Ō' else if c = 'ó' then 'Ó'
  else if c = 'ǒ' then 'Ǒ' else if c = 'ò' then 'Ò'
  else if c = 'ū' then 'Ū' else if c = 'ú' then 'Ú'
  else if c = 'ǔ' then 'Ǔ' else if c = 'ù' then 'Ù'
  else if c = 'ǖ' then 'Ǖ' else if c = 'ǘ' then 'Ǘ'
  else if c = 'ǚ' then 'Ǚ' else if c = 'ǜ' then 'Ǜ'
  else c.toUpper

/-- Python `str.isupper` on one character, for the characters it is applied
to in `decode_pinyin` (the vowel-class characters `a e i o u v ü` in either
case). -/
def pyIsUpper (c : Char) : Bool :=
  c.isUpper || c = 'Ü'

/-- `convert.py` line 49: the string `vowels = 'aeiouvü'`. -/
def vowelChars : List Char := ['a', 'e', 'i', 'o', 'u', 'v', 'ü']

/-- The test `base[i].lower() in vowels` of `convert.py` line 62. -/
def isVowelClass (c : Char) : Bool :=
  decide (pyLower c ∈ vowelChars)

/-- The `tone_marks` table of `convert.py` lines 7-15: for each base vowel
the glyphs for tones 1-4 plus the unmarked glyph. -/
def toneRow (c : Char) : Option (List Char) :=
  if c = 'a' then some ['ā', 'á', 'ǎ', 'à', 'a']
  else if c = 'e' then some ['ē', 'é', 'ě', 'è', 'e']
  else if c = 'i' then some ['ī', 'í', 'ǐ', 'ì', 'i']
  else if c = 'o' then some ['ō', 'ó', 'ǒ', 'ò', 'o']
  else if c = 'u' then some ['ū', 'ú', 'ǔ', 'ù', 'u']
  else if c = 'v' then some ['ǖ', 'ǘ', 'ǚ', 'ǜ', 'ü']
  else if c = 'ü' then some ['ǖ', 'ǘ', 'ǚ', 'ǜ', 'ü']
  else none

/-- All tone-marked vowel glyphs (tones 1-4, both cases). A "diacritic mark"
in the sense of the specification is the presence of one of these. -/
def markedVowels : List Char :=
  ['ā', 'á', 'ǎ', 'à', 'ē', 'é', 'ě', 'è', 'ī', 'í', 'ǐ', 'ì',
   'ō', 'ó', 'ǒ', 'ò', 'ū', 'ú', 'ǔ', 'ù', 'ǖ', 'ǘ', 'ǚ', 'ǜ',
   'Ā', 'Á', 'Ǎ', 'À', 'Ē', 'É', 'Ě', 'È', 'Ī', 'Í', 'Ǐ', 'Ì',
   'Ō', 'Ó', 'Ǒ', 'Ò', 'Ū', 'Ú', 'Ǔ', 'Ù', 'Ǖ', 'Ǘ', 'Ǚ', 'Ǜ']

/-- Whether a character carries a tone diacritic. -/
def isToneMarked (c : Char) : Bool :=
  decide (c ∈ markedVowels)

/-- Number of tone-marked characters in a character list. -/
def countMarked (l : List Char) : Nat :=
  l.countP isToneMarked

/-- The vowel-class characters in either case: exactly those whose Python
lowercase lies in `vowelChars`. -/
def vowelClassGlyphs : List Char :=
  ['a', 'e', 'i', 'o', 'u', 'v', 'ü', 'A', 'E', 'I', 'O', 'U', 'V', 'Ü']

/-- Uppercase vowel-class glyphs, marked or unmarked: used to *state* the
case-preservation property of the transliterator. -/
def upperVowelGlyphs : List Char :=
  ['A', 'E', 'I', 'O', 'U', 'V', 'Ü',
   'Ā', 'Á', 'Ǎ', 'À', 'Ē', 'É', 'Ě', 'È', 'Ī', 'Í', 'Ǐ', 'Ì',
   'Ō', 'Ó', 'Ǒ', 'Ò', 'Ū', 'Ú', 'Ǔ', 'Ù', 'Ǖ', 'Ǘ', 'Ǚ', 'Ǜ']

/-- Whether a vowel glyph is uppercase (property language, not code). -/
def isUpperVowel (c : Char) : Bool :=
  decide (c ∈ upperVowelGlyphs)

/-! ### `decode_pinyin` (`convert.py` lines 4-79) -/

/-- `base.replace('u:', 'ü')` of line 37: left-to-right, non-overlapping. -/
def replaceLowerU : List Char → List Char
  | 'u' :: ':' :: rest => 'ü' :: replaceLowerU rest
  | c :: rest => c :: replaceLowerU rest
  | [] => []

/-- `base.replace('U:', 'Ü')` of line 38. -/
def replaceUpperU : List Char → List Char
  | 'U' :: ':' :: rest => 'Ü' :: replaceUpperU rest
  | c :: rest => c :: replaceUpperU rest
  | [] => []

/-- Lines 37-38: the two sequential `u:`/`U:` rewrites. -/
def rewriteUmlauts (l : List Char) : List Char :=
  replaceUpperU (replaceLowerU l)

/-- Index of the first occurrence of `c`, as `base.find(c)` (guarded by
`c in base` in the source, hence the `Option`). -/
def firstIdxOf (c : Char) : List Char → Option Nat
  | [] => none
  | x :: rest => if x = c then some 0 else (firstIdxOf c rest).map (· + 1)

/-- The substring test `'ou' in base` of line 57. -/
def hasOU : List Char → Bool
  | 'o' :: 'u' :: _ => true
  | _ :: rest => hasOU rest
  | [] => false

/-- Lines 60-64: scan the base from the end for the last vowel-class
character. -/
def lastVowelIdx : List Char → Option Nat
  | [] => none
  | c :: rest =>
    match lastVowelIdx rest with
    | some j => some (j + 1)
    | none => if isVowelClass c then some 0 else none

/-- Lines 52-64: choose the index to mark. First `a` if present, else first
`e`, else (when the digraph `ou` occurs) the first `o`, else the last
vowel-class character scanning from the end; `none` is the source's `-1`. -/
def findMarkIdx (base : List Char) : Option Nat :=
  match firstIdxOf 'a' base with
  | some i => some i
  | none =>
    match firstIdxOf 'e' base with
    | some i => some i
    | none =>
      if hasOU base then firstIdxOf 'o' base
      else lastVowelIdx base

/-- Lines 71-73: the replacement for the marked character, given its tone
row: `tone_marks[lower_char][tone-1]`, uppercased when the original letter
is uppercase. -/
def markRepl (c : Char) (row : List Char) (tone : Nat) : Char :=
  let r := row.getD (tone - 1) c
  if pyIsUpper c then pyUpper r else r

/-- The replacement character `decode_pinyin` substitutes for `c` at tone
`tone`; `c` itself when `c.lower()` has no tone row. -/
def markChar (c : Char) (tone : Nat) : Char :=
  match toneRow (pyLower c) with
  | none => c
  | some row => markRepl c row tone

/-- Lines 48-75: place the tone mark in `base` (already rewritten), for a
tone in 1-4. If no index is found, or the character at the found index has
no tone row, the base is returned unchanged. -/
def applyToneAt (base : List Char) (tone : Nat) : List Char :=
  match findMarkIdx base with
  | none => base
  | some i =>
    match toneRow (pyLower (base.getD i ' ')) with
    | none => base
    | some row => base.set i (markRepl (base.getD i ' ') row tone)

/-- Lines 20-77: process one space-separated word. A trailing ASCII digit is
the tone (the `int(...)` fallback of lines 29-31 is unreachable for ASCII
digits, the only digits `str.isdigit` accepts here); tone 5 or no digit
means no mark; a tone outside 1-5 returns the word untouched (including its
digit, and before the `u:` rewrite). -/
def decodeWord (w : List Char) : List Char :=
  let p : Nat × List Char :=
    match w.getLast? with
    | some d => if d.isDigit then (d.toNat - 48, w.dropLast) else (5, w)
    | none => (5, w)
  let base := rewriteUmlauts p.2
  if p.1 < 1 || p.1 > 5 then w
  else if p.1 = 5 then base
  else applyToneAt base p.1

/-- Python `s.split(sep)` for a one-character separator (empty pieces
kept). -/
def splitOnChar (sep : Char) : List Char → List (List Char)
  | [] => [[]]
  | c :: rest =>
    if c = sep then [] :: splitOnChar sep rest
    else
      match splitOnChar sep rest with
      | w :: ws => (c :: w) :: ws
      | [] => [[c]]

/-- `convert.py` lines 4-79: `decode_pinyin`. Split on spaces, skip empty
words, decode each word, rejoin with single spaces. -/
def decode_pinyin (s : String) : String :=
  String.mk
    (List.intercalate [' ']
      (((splitOnChar ' ' s.toList).filter (fun w => w ≠ [])).map decodeWord))

/-! ### `parse_line` field derivations (`convert.py` lines 81-102)

The regular expression of line 84 only carves the raw line into the four
capture groups (traditional, simplified, pinyin, definitions); `mkEntry`
embeds everything the function computes *from* those captures
(lines 86-101). -/

/-- Python's ASCII whitespace class `\s`. -/
def isPyWs (c : Char) : Bool :=
  c = ' ' || c = '\t' || c = '\n' || c = '\x0d' || c = '\x0b' || c = '\x0c'

/-- Python `str.lower` on a whole string. -/
def pyStrLower (s : String) : String :=
  String.mk (s.toList.map pyLower)

/-- A row of the `dictionary` table as `parse_line` fills it (before the
ingestion-time flags are attached). -/
structure Entry where
  traditional : String
  simplified : String
  pinyin : String
  pinyin_clean : String
  pinyin_numbered : String
  pinyin_marks : String
  definitions : String
deriving DecidableEq, Repr

/-- Lines 86-101 of `parse_line`, applied to the four regex captures:
`pinyin_clean` strips digits and whitespace then lowercases,
`pinyin_numbered` strips whitespace then lowercases, `pinyin_marks` is
`decode_pinyin` of the *raw* pinyin capture. -/
def mkEntry (traditional simplified pinyin definitions : String) : Entry :=
  { traditional := traditional
    simplified := simplified
    pinyin := pinyin
    pinyin_clean :=
      pyStrLower (String.mk (pinyin.toList.filter (fun c => !(c.isDigit || isPyWs c))))
    pinyin_numbered :=
      pyStrLower (String.mk (pinyin.toList.filter (fun c => !isPyWs c)))
    pinyin_marks := decode_pinyin pinyin
    definitions := definitions }

/-! ### The search pipeline (`app.py` lines 44-260) -/

/-- Python `str.strip()` (line 46). -/
def pyStrip (s : String) : String :=
  String.mk (((s.toList.dropWhile isPyWs).reverse.dropWhile isPyWs).reverse)

/-- Python `s.split(sep)` on strings, one-character separator. -/
def pySplit (sep : Char) (s : String) : List String :=
  (splitOnChar sep s.toList).map String.mk

/-- A `dictionary` row as the three retrieval strategies deliver it.
`fts_rank` is `some` exactly on rows of the full-text query, which alone
selects `f.rank` (on other rows the Python dict simply has no such key). -/
structure Row where
  id : Nat
  traditional : String
  simplified : String
  pinyin_marks : String
  definitions : String
  has_examples : Bool
  has_stroke : Bool
  hsk_level : Nat
  fts_rank : Option Int
deriving DecidableEq, Repr

/-- The `_match_type` tag of `add_unique_results` (line 69). -/
inductive MatchType
  | exact
  | starts_with
  | fts
  | other
deriving DecidableEq, Repr

/-- The `priority_map` of lines 149 and 170-175. -/
def priorityMap : MatchType → Nat
  | .exact => 0
  | .starts_with => 1
  | .fts => 2
  | .other => 3

/-- A row tagged with its originating strategy. -/
structure Hit where
  row : Row
  matchType : MatchType
deriving DecidableEq, Repr

/-- `add_unique_results` (lines 65-71): append rows not yet seen by id,
tagging them with the strategy's match type. The state is the accumulated
result list together with the set of seen ids. -/
def addUnique (st : List Hit × List Nat) (rows : List Row) (mt : MatchType) :
    List Hit × List Nat :=
  rows.foldl
    (fun st row =>
      if row.id ∈ st.2 then st
      else (st.1 ++ [⟨row, mt⟩], st.2 ++ [row.id]))
    st

/-- Lines 73-114: run the three strategies in order (exact, starts-with,
full-text). The full-text strategy is fallible; its `Except.error` case is
the `except` branch of lines 113-114, which drops the strategy's rows and
continues. -/
def collectHits (exactRows startRows : List Row)
    (ftsOutcome : Except String (List Row)) : List Hit :=
  let st := addUnique ([], []) exactRows .exact
  let st := addUnique st startRows .starts_with
  let st :=
    match ftsOutcome with
    | .ok rows => addUnique st rows .fts
    | .error _ => st
  st.1

/-- The merge accumulator of lines 117-154 (one value of `merged_results`).
`traditional` and `definitions` keep the seed hit's values until the
finalization of lines 156-163 overwrites them. -/
structure Merged where
  simplified : String
  pinyin_marks : String
  traditional : String
  definitions : String
  traditional_variants : List String
  definition_list : List String
  has_examples : Bool
  has_stroke : Bool
  hsk_level : Nat
  matchType : MatchType
  fts_rank : Option Int
deriving DecidableEq, Repr

/-- The grouping key of line 120: `(simplified, pinyin_marks.lower())`. -/
def mergeKey (h : Hit) : String × String :=
  (h.row.simplified, pyStrLower h.row.pinyin_marks)

/-- Lines 122-126: the first hit with a new key seeds the merged entry. -/
def seedMerged (h : Hit) : Merged :=
  { simplified := h.row.simplified
    pinyin_marks := h.row.pinyin_marks
    traditional := h.row.traditional
    definitions := h.row.definitions
    traditional_variants := [h.row.traditional]
    definition_list := pySplit '/' h.row.definitions
    has_examples := h.row.has_examples
    has_stroke := h.row.has_stroke
    hsk_level := h.row.hsk_level
    matchType := h.matchType
    fts_rank := h.row.fts_rank }

/-- Line 130: adding to the Python set `traditional_variants`. -/
def addVariant (vs : List String) (t : String) : List String :=
  if t ∈ vs then vs else vs ++ [t]

/-- Lines 133-136: append each new gloss that is nonempty and not already
present (membership is tested against the growing list). -/
def addDefs : List String → List String → List String
  | l, [] => l
  | l, d :: ds => addDefs (if d ≠ "" ∧ d ∉ l then l ++ [d] else l) ds

/-- Lines 143-146: merged HSK level (the lower nonzero one). -/
def mergeHsk (l1 l2 : Nat) : Nat :=
  if l1 = 0 then l2
  else if l2 ≠ 0 then min l1 l2
  else l1

/-- Lines 128-154: merge a later hit into an existing entry: union the
variants and glosses, OR the data flags, take the easier HSK level, and
let a strictly higher-priority match type win, adopting its rank when the
winning hit carries one. -/
def mergeInto (ex : Merged) (h : Hit) : Merged :=
  let ex :=
    { ex with
      traditional_variants := addVariant ex.traditional_variants h.row.traditional
      definition_list := addDefs ex.definition_list (pySplit '/' h.row.definitions)
      has_examples := ex.has_examples || h.row.has_examples
      has_stroke := ex.has_stroke || h.row.has_stroke
      hsk_level := mergeHsk ex.hsk_level h.row.hsk_level }
  if priorityMap h.matchType < priorityMap ex.matchType then
    { ex with
      matchType := h.matchType
      fts_rank :=
        match h.row.fts_rank with
        | some r => some r
        | none => ex.fts_rank }
  else ex

/-- One step of the loop of lines 118-154 on the insertion-ordered map
`merged_results`, embedded as an association list. -/
def mergeStep (st : List ((String × String) × Merged)) (h : Hit) :
    List ((String × String) × Merged) :=
  if (st.lookup (mergeKey h)).isSome then
    st.map (fun kv => if kv.1 = mergeKey h then (kv.1, mergeInto kv.2 h) else kv)
  else st ++ [(mergeKey h, seedMerged h)]

/-- Lines 117-154: group all hits by their merge key. -/
def mergeAll (hits : List Hit) : List ((String × String) × Merged) :=
  hits.foldl mergeStep []

/-- The gloss list a hit contributes: its stored definitions split on the
reserved separator. -/
def defsOf (h : Hit) : List String :=
  pySplit '/' h.row.definitions

/-- The per-key definition-list fold: what the merge loop computes for one
key from the hits carrying it, in discovery order (the seed's list is kept
verbatim, the rest merge through `addDefs`). -/
def mergedDefsAux (l : List String) (hs : List Hit) : List String :=
  hs.foldl (fun acc h => addDefs acc (defsOf h)) l

/-- `mergedDefs` of the hits sharing one key, seed first. -/
def mergedDefs : List Hit → List String
  | [] => []
  | h :: hs => mergedDefsAux (defsOf h) hs

/-- Spec-side (from the specification's words "de-duplicated union, order
of first appearance preserved"): the subsequence of `l` keeping only the
first occurrence of each element, given the elements already `seen`. -/
def dedupKeepFirst (seen : List String) : List String → List String
  | [] => []
  | g :: gs =>
    if g ∈ seen then dedupKeepFirst seen gs
    else g :: dedupKeepFirst (g :: seen) gs

/-- Lines 156-163: render the variants back into a sorted " / "-joined
string and the gloss list back into "/"-joined canonical form. -/
def finalizeMerged (m : Merged) : Merged :=
  { m with
    traditional :=
      String.intercalate " / " (m.traditional_variants.mergeSort (fun a b => decide (a ≤ b)))
    definitions := String.intercalate "/" m.definition_list }

/-- `score_result` (lines 166-201): the six-component sort key
`(priority, exact_def_bonus, hsk_score, data_score, fts_rank, length)`.
`q` is the (already stripped) query string of line 46. -/
def scoreKey (q : String) (m : Merged) : Nat × Int × Nat × Nat × Int × Nat :=
  let priority := priorityMap m.matchType
  let data_score : Nat :=
    (if !m.has_examples then 2 else 0) + (if !m.has_stroke then 5 else 0)
  let hsk_score : Nat := if m.hsk_level > 0 then m.hsk_level else 10
  let fts_rank : Int := m.fts_rank.getD 0
  let length : Nat := m.simplified.length
  let exact_def_bonus : Int :=
    if m.matchType = .fts ∧
        pyStrLower q ∈ ((pySplit '/' (pyStrLower m.definitions)).map pyStrip)
    then -10 else 0
  (priority, exact_def_bonus, hsk_score, data_score, fts_rank, length)

/-- Lexicographic order on the six-component score key (how Python compares
the tuples returned by `score_result`). -/
def keyLe :
    Nat × Int × Nat × Nat × Int × Nat → Nat × Int × Nat × Nat × Int × Nat → Bool
  | (a1, a2, a3, a4, a5, a6), (b1, b2, b3, b4, b5, b6) =>
    decide (a1 < b1 ∨ (a1 = b1 ∧ (a2 < b2 ∨ (a2 = b2 ∧
      (a3 < b3 ∨ (a3 = b3 ∧ (a4 < b4 ∨ (a4 = b4 ∧
        (a5 < b5 ∨ (a5 = b5 ∧ a6 ≤ b6))))))))))

/-- Strict version of `keyLe`. -/
def keyLt :
    Nat × Int × Nat × Nat × Int × Nat → Nat × Int × Nat × Nat × Int × Nat → Bool
  | (a1, a2, a3, a4, a5, a6), (b1, b2, b3, b4, b5, b6) =>
    decide (a1 < b1 ∨ (a1 = b1 ∧ (a2 < b2 ∨ (a2 = b2 ∧
      (a3 < b3 ∨ (a3 = b3 ∧ (a4 < b4 ∨ (a4 = b4 ∧
        (a5 < b5 ∨ (a5 = b5 ∧ a6 < b6))))))))))

/-- Line 203: `all_results.sort(key=score_result)` — ascending stable sort
by the score key. -/
def sortResults (q : String) (l : List Merged) : List Merged :=
  l.mergeSort (fun a b => keyLe (scoreKey q a) (scoreKey q b))

/-- Lines 62-163 and 203: the ordered merged result list produced by
`search` from the rows the three strategies returned. -/
def searchResults (q : String) (exactRows startRows : List Row)
    (ftsOutcome : Except String (List Row)) : List Merged :=
  sortResults q ((mergeAll (collectHits exactRows startRows ftsOutcome)).map
    (fun kv => finalizeMerged kv.2))

/-- `RESULTS_PER_PAGE` (line 48). -/
def RESULTS_PER_PAGE : Nat := 20

/-- CPython normalization of a (possibly negative) slice endpoint against a
sequence of length `n`. -/
def normIdx (n : Nat) (i : Int) : Nat :=
  (if i < 0 then max (i + n) 0 else min i n).toNat

/-- Python `l[a:b]` (step 1), with negative-index semantics. -/
def pySlice {α : Type} (l : List α) (a b : Int) : List α :=
  let s := normIdx l.length a
  let e := normIdx l.length b
  (l.drop s).take (e - s)

/-- Lines 205-210: pagination. Returns the page slice and `total_pages`
(the ceiling division of line 207). `page` comes straight from the request
and may be any integer. -/
def paginate {α : Type} (l : List α) (page : Int) : List α × Nat :=
  let total_pages := (l.length + RESULTS_PER_PAGE - 1) / RESULTS_PER_PAGE
  let start : Int := (page - 1) * (RESULTS_PER_PAGE : Nat)
  (pySlice l start (start + (RESULTS_PER_PAGE : Nat)), total_pages)

/-- The whole ranked-and-paginated pipeline: ordered results for the
requested page plus the page count. -/
def runSearch (q : String) (page : Int) (exactRows startRows : List Row)
    (ftsOutcome : Except String (List Row)) : List Merged × Nat :=
  paginate (searchResults q exactRows startRows ftsOutcome) page

/-! ### Enrichment: character breakdown (`app.py` lines 221-249) -/

/-- A `character_breakdown` item (the fields the template consumes; the
found case carries the row's fields plus the truncated gloss list). -/
structure BreakdownItem where
  simplified : String
  traditional : String
  pinyin_marks : String
  definitions : String
  short_definitions : String
deriving DecidableEq, Repr

/-- Lines 243-249: the fallback record for a character that has no
single-character dictionary entry. -/
def placeholderItem (c : Char) : BreakdownItem :=
  { simplified := String.mk [c]
    traditional := String.mk [c]
    pinyin_marks := ""
    definitions := "N/A"
    short_definitions := "N/A" }

/-- Line 233: `SELECT * FROM dictionary WHERE simplified = ? AND
length(simplified) = 1 LIMIT 1`, over the table embedded as a row list. -/
def lookupSingleChar (db : List Row) (c : Char) : Option Row :=
  db.find? (fun r => r.simplified = String.mk [c] ∧ r.simplified.length = 1)

/-- Lines 227-249: handle one character of the breakdown, consulting and
updating the request-scoped `char_cache` (found entries are cached, the
placeholder is not). -/
def breakdownStep (db : List Row) (cache : List (Char × BreakdownItem))
    (c : Char) : BreakdownItem × List (Char × BreakdownItem) :=
  match cache.lookup c with
  | some item => (item, cache)
  | none =>
    match lookupSingleChar db c with
    | some row =>
      let item : BreakdownItem :=
        { simplified := row.simplified
          traditional := row.traditional
          pinyin_marks := row.pinyin_marks
          definitions := row.definitions
          short_definitions :=
            String.intercalate "/" ((pySplit '/' row.definitions).take 3) }
      (item, cache ++ [(c, item)])
    | none => (placeholderItem c, cache)

/-- Lines 227-249: the breakdown of a whole simplified form (the loop body
runs only when the form has at least two characters). -/
def charBreakdown (db : List Row) (cache : List (Char × BreakdownItem))
    (chars : List Char) : List BreakdownItem × List (Char × BreakdownItem) :=
  chars.foldl
    (fun st c =>
      let r := breakdownStep db st.2 c
      (st.1 ++ [r.1], r.2))
    ([], cache)

/-! ### Sample values used by witness instantiations -/

/-- A sample dictionary row. -/
def sampleRow : Row :=
  { id := 1
    traditional := "你好"
    simplified := "你好"
    pinyin_marks := "nǐ hǎo"
    definitions := "hello/hi"
    has_examples := true
    has_stroke := true
    hsk_level := 1
    fts_rank := none }

/-- A sample merged entry. -/
def sampleMerged : Merged := seedMerged ⟨sampleRow, .other⟩

/-- A sample full-text hit carrying a rank. -/
def sampleFtsHit : Hit :=
  ⟨{ sampleRow with id := 2, fts_rank := some (-7) }, .fts⟩

/-- A sample exact-match hit. -/
def sampleExactHit : Hit := ⟨sampleRow, .exact⟩

/-- A hit whose stored definitions contain an internal duplicate gloss. -/
def dupHit : Hit := ⟨{ sampleRow with definitions := "hello/hello" }, .exact⟩

/-! ### General lemmas -/

theorem splitOnChar_no_sep (sep : Char) (l : List Char) (h : sep ∉ l) :
    splitOnChar sep l = [l] := by
  induction l with
  | nil => rfl
  | cons c rest ih =>
    have hc : ¬c = sep := fun hc => h (hc ▸ List.mem_cons_self c rest)
    have hr : sep ∉ rest := fun hr => h (List.mem_cons_of_mem c hr)
    simp only [splitOnChar, if_neg hc, ih hr]

theorem intercalate_singleton (sep : List Char) (l : List Char) :
    List.intercalate sep [l] = l := by
  simp [List.intercalate]

theorem keyLe_trans (a b c : Nat × Int × Nat × Nat × Int × Nat)
    (h1 : keyLe a b = true) (h2 : keyLe b c = true) : keyLe a c = true := by
  obtain ⟨a1, a2, a3, a4, a5, a6⟩ := a
  obtain ⟨b1, b2, b3, b4, b5, b6⟩ := b
  obtain ⟨c1, c2, c3, c4, c5, c6⟩ := c
  simp only [keyLe, decide_eq_true_eq] at h1 h2 ⊢
  omega

theorem keyLe_total (a b : Nat × Int × Nat × Nat × Int × Nat) :
    (keyLe a b || keyLe b a) = true := by
  obtain ⟨a1, a2, a3, a4, a5, a6⟩ := a
  obtain ⟨b1, b2, b3, b4, b5, b6⟩ := b
  simp only [keyLe, Bool.or_eq_true, decide_eq_true_eq]
  omega

theorem charBreakdown_fold_length (db : List Row) (cs : List Char) :
    ∀ st : List BreakdownItem × List (Char × BreakdownItem),
      (cs.foldl
        (fun st c =>
          let r := breakdownStep db st.2 c
          (st.1 ++ [r.1], r.2)) st).1.length = st.1.length + cs.length := by
  induction cs with
  | nil => intro st; simp
  | cons c rest ih =>
    intro st
    simp only [List.foldl_cons]
    rw [ih]
    simp
    omega

theorem keyLt_of_fst_lt (a b : Nat × Int × Nat × Nat × Int × Nat)
    (h : a.1 < b.1) : keyLt a b = true := by
  obtain ⟨a1, a2, a3, a4, a5, a6⟩ := a
  obtain ⟨b1, b2, b3, b4, b5, b6⟩ := b
  simp only [keyLt, decide_eq_true_eq]
  exact Or.inl h

/-! ### Claim C1: the composite ascending sort key -/

/-- **C1.** The scorer orders merged results ascending by the lexicographic
six-component key of `score_result`: match-type priority (exact 0,
starts_with 1, fts 2, other 3); the exact-definition bonus, −10 exactly
when the match type is `fts` and the lowercased query equals one trimmed
gloss of the definition list, else 0; the HSK score (`hsk_level` when
nonzero, else 10); the data-quality penalty (+2 without examples, +5
without stroke data); the full-text rank (0 when absent); and the length
of the simplified form. The sorted output is a permutation of the input,
pairwise ordered by the key; and for results differing only in the match
type the key of an exact match is strictly below that of a starts_with
match, which is strictly below that of an fts match, so exact sorts first
and fts last among them. -/
theorem result_ordering (q : String) (l : List Merged) (r : Merged) :
    (sortResults q l).Perm l ∧
    (sortResults q l).Pairwise
      (fun a b => keyLe (scoreKey q a) (scoreKey q b) = true) ∧
    scoreKey q r =
      (priorityMap r.matchType,
        (if r.matchType = .fts ∧
            pyStrLower q ∈ ((pySplit '/' (pyStrLower r.definitions)).map pyStrip)
          then -10 else 0),
        (if r.hsk_level ≠ 0 then r.hsk_level else 10),
        ((if r.has_examples then 0 else 2) + (if r.has_stroke then 0 else 5)),
        r.fts_rank.getD 0,
        r.simplified.length) ∧
    (priorityMap .exact = 0 ∧ priorityMap .starts_with = 1 ∧
      priorityMap .fts = 2 ∧ priorityMap .other = 3) ∧
    keyLt (scoreKey q { r with matchType := .exact })
      (scoreKey q { r with matchType := .starts_with }) = true ∧
    keyLt (scoreKey q { r with matchType := .starts_with })
      (scoreKey q { r with matchType := .fts }) = true := by
  refine ⟨List.mergeSort_perm l _,
    @List.sorted_mergeSort Merged
      (fun a b => keyLe (scoreKey q a) (scoreKey q b))
      (fun a b c h1 h2 => keyLe_trans _ _ _ h1 h2)
      (fun a b => keyLe_total _ _) l, ?_, ⟨rfl, rfl, rfl, rfl⟩,
    keyLt_of_fst_lt _ _ Nat.zero_lt_one, keyLt_of_fst_lt _ _ Nat.one_lt_two⟩
  simp only [scoreKey, Prod.mk.injEq]
  refine ⟨trivial, trivial, ?_, ?_, trivial⟩
  · split_ifs <;> omega
  · cases r.has_examples <;> cases r.has_stroke <;> rfl

/-! ### Claim C4: invalid tone digits pass the syllable through unchanged -/

/-- **C4.** A syllable whose trailing digit encodes a tone outside 1-5
(that is, 0 or 6-9) is emitted by `decode_pinyin` completely unchanged:
the trailing digit is kept and the `u:`→`ü` rewrite is *not* applied
(`convert.py` lines 40-42 append the original `word`, not the rewritten
`base`). The function is total, so no error can be raised. -/
theorem invalid_tone_passthrough (w : List Char) (d : Char)
    (hne : w ≠ []) (hsp : ' ' ∉ w)
    (hlast : w.getLast? = some d) (hdig : d.isDigit = true)
    (htone : d.toNat - 48 = 0 ∨ 5 < d.toNat - 48) :
    decodeWord w = w ∧ decode_pinyin (String.mk w) = String.mk w := by
  have hword : decodeWord w = w := by
    have hguard : (d.toNat - 48 < 1 || d.toNat - 48 > 5) = true := by
      simp only [Bool.or_eq_true, decide_eq_true_eq]
      omega
    simp only [decodeWord, hlast, hdig, if_true, hguard]
  refine ⟨hword, ?_⟩
  have htl : (String.mk w).toList = w := rfl
  have hfil : List.filter (fun x => x ≠ []) [w] = [w] := by simp [hne]
  simp only [decode_pinyin, htl, splitOnChar_no_sep ' ' w hsp, hfil,
    List.map_cons, List.map_nil, hword, intercalate_singleton]

/-- Witness for C4 at the concrete syllable `lu:6`: emitted unchanged,
digit kept, no umlaut rewrite. -/
theorem invalid_tone_passthrough_witness :
    (("lu:6".toList ≠ []) ∧ (' ' ∉ "lu:6".toList) ∧
      ("lu:6".toList.getLast? = some '6') ∧ ('6'.isDigit = true) ∧
      ('6'.toNat - 48 = 0 ∨ 5 < '6'.toNat - 48)) ∧
    (decodeWord "lu:6".toList = "lu:6".toList ∧
      decode_pinyin (String.mk "lu:6".toList) = String.mk "lu:6".toList) :=
  ⟨⟨by decide, by decide, by decide, by decide, by decide⟩,
    invalid_tone_passthrough "lu:6".toList '6' (by decide) (by decide)
      (by decide) (by decide) (by decide)⟩

/-! ### Claim C5: a failing full-text query is swallowed -/

/-- **C5.** When the full-text strategy fails (malformed full-text query),
the `except` branch of `app.py` lines 113-114 swallows the error: the
pipeline behaves exactly as if the strategy had returned zero rows — the
exact and starts-with hits are still merged, scored, sorted and paginated,
and no exception reaches the caller (the embedded pipeline is a total
function). -/
theorem fts_error_swallowed (q : String) (page : Int)
    (exactRows startRows : List Row) (msg : String) :
    searchResults q exactRows startRows (.error msg) =
      searchResults q exactRows startRows (.ok []) ∧
    runSearch q page exactRows startRows (.error msg) =
      runSearch q page exactRows startRows (.ok []) :=
  ⟨rfl, rfl⟩

/-! ### Claim C6: pagination -/

/-- **C6.** With the fixed page size 20 (`RESULTS_PER_PAGE`), pagination
computes `total_pages = ⌈total / 20⌉`, and any requested page strictly
beyond `total_pages` yields an empty slice (no exception: slicing is
total). Stated for two independent instantiations so that both halves of
the claim are fully general. -/
theorem pagination_ceiling_and_overflow {α β : Type} (l : List α)
    (l2 : List β) (page page2 : Int) (hp : 1 ≤ page) (hp2 : 1 ≤ page2)
    (hover : ((paginate l2 page2).2 : Int) < page2) :
    ((paginate l page).2 : Int) = ⌈(l.length : ℚ) / 20⌉ ∧
    (paginate l2 page2).1 = [] := by
  constructor
  · simp only [paginate, RESULTS_PER_PAGE]
    rw [eq_comm, Int.ceil_eq_iff]
    have h1 : (l.length : Int) ≤ (((l.length + 20 - 1) / 20 : Nat) : Int) * 20 := by
      omega
    have h2 : (((l.length + 20 - 1) / 20 : Nat) : Int) * 20 - 20 <
        (l.length : Int) := by
      omega
    have h1q : (l.length : ℚ) ≤ ((((l.length + 20 - 1) / 20 : Nat) : Int) : ℚ) * 20 := by
      exact_mod_cast h1
    have h2q : ((((l.length + 20 - 1) / 20 : Nat) : Int) : ℚ) * 20 - 20 <
        (l.length : ℚ) := by
      exact_mod_cast h2
    constructor
    · rw [lt_div_iff₀ (by norm_num : (0 : ℚ) < 20)]
      linarith
    · rw [div_le_iff₀ (by norm_num : (0 : ℚ) < 20)]
      linarith
  · simp only [paginate, RESULTS_PER_PAGE] at hover
    rw [← List.length_eq_zero]
    simp only [paginate, pySlice, normIdx, RESULTS_PER_PAGE,
      List.length_take, List.length_drop]
    split_ifs <;> omega

/-- Witness for C6 at an empty result list and page 2 (beyond the single
empty page). -/
theorem pagination_ceiling_and_overflow_witness :
    ((1 : Int) ≤ 2 ∧ (1 : Int) ≤ 2 ∧
      (((paginate ([] : List Nat) 2).2 : Int) < 2)) ∧
    (((paginate ([] : List Nat) 2).2 : Int) = ⌈((([] : List Nat).length : ℚ)) / 20⌉ ∧
      (paginate ([] : List Nat) 2).1 = []) :=
  ⟨⟨by decide, by decide, by decide⟩,
    pagination_ceiling_and_overflow ([] : List Nat) ([] : List Nat) 2 2
      (by decide) (by decide) (by decide)⟩

/-! ### Claim C10: pages below 1 -/

/-- **C10.** `search` never validates `page ≥ 1`. Slicing still never
raises (the embedded slice is total), but the result is not uniformly
empty: `page = 0` always yields an empty slice (`l[-20:0]`), whereas
`page = -1` slices `l[-40:-20]`, which is *non-empty* whenever more than
20 merged results exist. -/
theorem pagination_below_one {α β : Type} (l : List α) (l2 : List β)
    (h : 20 < l2.length) :
    (paginate l 0).1 = [] ∧ (paginate l2 (-1)).1 ≠ [] := by
  constructor
  · rw [← List.length_eq_zero]
    simp only [paginate, pySlice, normIdx, RESULTS_PER_PAGE,
      List.length_take, List.length_drop]
    split_ifs <;> omega
  · apply List.ne_nil_of_length_pos
    simp only [paginate, pySlice, normIdx, RESULTS_PER_PAGE,
      List.length_take, List.length_drop]
    split_ifs <;> omega

/-- Witness for C10 on a 21-element list: page 0 is empty, page -1 is
not. -/
theorem pagination_below_one_witness :
    (20 < (List.replicate 21 0).length) ∧
    ((paginate ([] : List Nat) 0).1 = [] ∧
      (paginate (List.replicate 21 0) (-1)).1 ≠ []) :=
  ⟨by decide,
    pagination_below_one ([] : List Nat) (List.replicate 21 0) (by decide)⟩

/-! ### Claim C3: derivability of `pinyin_marks` -/

/-- **C3 counterexample.** For the CC-CEDICT line
`你好 你好 [ni3 hao3] /hello/`, the stored `pinyin_numbered` is
`"ni3hao3"` (spaces removed), and `decode_pinyin` of that single
seven-character "syllable" marks the first `a` of the fused word, giving
`"ni3hǎo"` — not the stored `pinyin_marks` value `"nǐ hǎo"`. So
`pinyin_marks` is *not* derivable from `pinyin_numbered` by the
transliterator. -/
theorem marks_not_from_numbered_cex :
    decode_pinyin ((mkEntry "你好" "你好" "ni3 hao3" "hello").pinyin_numbered) ≠
      (mkEntry "你好" "你好" "ni3 hao3" "hello").pinyin_marks := by
  decide

/-- **C3 (amended).** The stored `pinyin_marks` field equals
`decode_pinyin` applied to the *source* `pinyin` capture (which keeps its
spaces and case); it is not in general `decode_pinyin` of
`pinyin_numbered`, whose space stripping fuses the syllables (and whose
lowercasing loses case). -/
theorem marks_from_pinyin (t s p d : String) :
    (mkEntry t s p d).pinyin_marks = decode_pinyin ((mkEntry t s p d).pinyin) ∧
    (mkEntry t s p d).pinyin = p :=
  ⟨rfl, rfl⟩

/-! ### Claim C8: match-type precedence on merge -/

/-- **C8.** When a later hit merges into an existing entry
(`app.py` lines 148-154), the match type with the strictly lower numeric
priority wins and on equal (or worse) priority the earlier-seen match type
is kept; when the winning (incoming) hit is a full-text hit carrying a
relevance rank, that rank is adopted into the merged result. -/
theorem merge_match_type_precedence (ex ex2 : Merged) (h h2 : Hit) (r : Int)
    (hw : priorityMap h2.matchType < priorityMap ex2.matchType)
    (hfts : h2.matchType = MatchType.fts)
    (hr : h2.row.fts_rank = some r) :
    (mergeInto ex h).matchType =
      (if priorityMap h.matchType < priorityMap ex.matchType then h.matchType
        else ex.matchType) ∧
    (mergeInto ex2 h2).fts_rank = some r := by
  constructor
  · simp only [mergeInto]
    split <;> rfl
  · simp only [mergeInto]
    rw [if_pos hw, hr]

/-- Witness for C8: an `fts` hit with rank −7 wins over an `other`-tagged
entry and its rank is adopted. -/
theorem merge_match_type_precedence_witness :
    (priorityMap sampleFtsHit.matchType < priorityMap sampleMerged.matchType ∧
      sampleFtsHit.matchType = MatchType.fts ∧
      sampleFtsHit.row.fts_rank = some (-7)) ∧
    ((mergeInto sampleMerged sampleFtsHit).matchType =
      (if priorityMap sampleFtsHit.matchType < priorityMap sampleMerged.matchType
        then sampleFtsHit.matchType else sampleMerged.matchType) ∧
      (mergeInto sampleMerged sampleFtsHit).fts_rank = some (-7)) :=
  ⟨⟨by decide, by decide, by decide⟩,
    merge_match_type_precedence sampleMerged sampleMerged sampleFtsHit
      sampleFtsHit (-7) (by decide) (by decide) (by decide)⟩

/-! ### Claim C9: breakdown placeholder for missing characters -/

/-- **C9.** During enrichment, a character with no single-character
dictionary entry (and no cached item) produces the placeholder breakdown
item of `app.py` lines 243-249 — `definitions` is the explicit `"N/A"`
sentinel and the character itself stands as both `simplified` and
`traditional` — the lookup failure raises nothing (the step is total),
and the containing result's enrichment still produces one breakdown item
per character. -/
theorem breakdown_placeholder (db db2 : List Row)
    (cache cache2 : List (Char × BreakdownItem)) (c : Char) (cs : List Char)
    (hc : cache.lookup c = none) (hdb : lookupSingleChar db c = none) :
    breakdownStep db cache c = (placeholderItem c, cache) ∧
    (placeholderItem c).definitions = "N/A" ∧
    (placeholderItem c).simplified = String.mk [c] ∧
    (placeholderItem c).traditional = String.mk [c] ∧
    (charBreakdown db2 cache2 cs).1.length = cs.length := by
  refine ⟨?_, rfl, rfl, rfl, ?_⟩
  · simp only [breakdownStep, hc, hdb]
  · simp only [charBreakdown]
    rw [charBreakdown_fold_length]
    simp

/-- Witness for C9: the character `猫` against an empty table and cache. -/
theorem breakdown_placeholder_witness :
    ((([] : List (Char × BreakdownItem)).lookup '猫' = none) ∧
      (lookupSingleChar [] '猫' = none)) ∧
    (breakdownStep [] [] '猫' = (placeholderItem '猫', []) ∧
      (placeholderItem '猫').definitions = "N/A" ∧
      (placeholderItem '猫').simplified = String.mk ['猫'] ∧
      (placeholderItem '猫').traditional = String.mk ['猫'] ∧
      (charBreakdown [] [] "你好".toList).1.length = "你好".toList.length) :=
  ⟨⟨rfl, rfl⟩,
    breakdown_placeholder [] [] [] [] '猫' "你好".toList rfl rfl⟩

/-! ### Lemmas on the merge accumulator (for C7) -/

theorem addDefs_mono (ds : List String) :
    ∀ l d, d ∈ l → d ∈ addDefs l ds := by
  induction ds with
  | nil => intro l d h; exact h
  | cons e rest ih =>
    intro l d h
    simp only [addDefs]
    apply ih
    split
    · exact List.mem_append_left _ h
    · exact h

theorem addDefs_mem_new (ds : List String) :
    ∀ l d, d ∈ ds → d ≠ "" → d ∈ addDefs l ds := by
  induction ds with
  | nil => intro l d h; cases h
  | cons e rest ih =>
    intro l d hmem hne
    rcases List.mem_cons.mp hmem with rfl | hmem
    · simp only [addDefs]
      split_ifs with hcond
      · exact addDefs_mono rest _ d (List.mem_append_right _ (List.mem_singleton.mpr rfl))
      · have : d ∈ l := by
          by_contra hnl
          exact hcond ⟨hne, hnl⟩
        exact addDefs_mono rest _ d this
    · simp only [addDefs]
      exact ih _ d hmem hne

theorem addDefs_nodup (ds : List String) :
    ∀ l, l.Nodup → (addDefs l ds).Nodup := by
  induction ds with
  | nil => intro l h; exact h
  | cons e rest ih =>
    intro l h
    simp only [addDefs]
    apply ih
    split_ifs with hcond
    · rw [List.nodup_append]
      refine ⟨h, List.nodup_singleton e, ?_⟩
      intro a ha hae
      rw [List.mem_singleton] at hae
      exact hcond.2 (hae ▸ ha)
    · exact h

theorem mergeInto_def_list (ex : Merged) (h : Hit) :
    (mergeInto ex h).definition_list =
      addDefs ex.definition_list (pySplit '/' h.row.definitions) := by
  simp only [mergeInto]
  split <;> rfl

theorem lookup_some_mem (st : List ((String × String) × Merged))
    (k : String × String) (v : Merged) (h : st.lookup k = some v) :
    (k, v) ∈ st := by
  induction st with
  | nil => cases h
  | cons kv rest ih =>
    simp only [List.lookup] at h
    rcases hbe : k == kv.1 with _ | _
    · rw [hbe] at h
      exact List.mem_cons_of_mem _ (ih h)
    · rw [hbe] at h
      have hk : k = kv.1 := by
        have := hbe
        simp only [beq_iff_eq] at this
        exact this
      have hv : v = kv.2 := by
        injection h with h2
        exact h2.symm
      rw [hk, hv]
      exact List.mem_cons_self _ _

theorem lookup_none_not_key (st : List ((String × String) × Merged))
    (k : String × String) (h : st.lookup k = none) :
    ∀ kv ∈ st, kv.1 ≠ k := by
  induction st with
  | nil => intro kv hkv; cases hkv
  | cons kv0 rest ih =>
    intro kv hkv
    simp only [List.lookup] at h
    rcases hbe : k == kv0.1 with _ | _
    · rw [hbe] at h
      rcases List.mem_cons.mp hkv with rfl | hkv
      · intro hkk
        rw [hkk] at hbe
        simp at hbe
      · exact ih h kv hkv
    · rw [hbe] at h
      cases h

theorem mem_unique_of_nodup_keys (st : List ((String × String) × Merged))
    (hnd : (st.map Prod.fst).Nodup) (k : String × String) (m1 m2 : Merged)
    (h1 : (k, m1) ∈ st) (h2 : (k, m2) ∈ st) : m1 = m2 := by
  induction st with
  | nil => cases h1
  | cons kv rest ih =>
    rw [List.map_cons, List.nodup_cons] at hnd
    rcases List.mem_cons.mp h1 with he1 | h1r
    · rcases List.mem_cons.mp h2 with he2 | h2r
      · rw [← he1] at he2
        injection he2 with _ hv
        exact hv.symm
      · exfalso
        apply hnd.1
        have hk1 : kv.1 = k := by rw [← he1]
        rw [hk1]
        exact List.mem_map.mpr ⟨(k, m2), h2r, rfl⟩
    · rcases List.mem_cons.mp h2 with he2 | h2r
      · exfalso
        apply hnd.1
        have hk2 : kv.1 = k := by rw [← he2]
        rw [hk2]
        exact List.mem_map.mpr ⟨(k, m1), h1r, rfl⟩
      · exact ih hnd.2 h1r h2r

theorem mergeStep_keys (st : List ((String × String) × Merged)) (h : Hit) :
    (mergeStep st h).map Prod.fst =
      st.map Prod.fst ++
        (if (st.lookup (mergeKey h)).isSome then [] else [mergeKey h]) := by
  simp only [mergeStep]
  split_ifs with hlk
  · rw [List.map_map, List.append_nil]
    apply List.map_congr_left
    intro kv _
    simp only [Function.comp_apply]
    split <;> rfl
  · simp

theorem mergeStep_keys_nodup (st : List ((String × String) × Merged))
    (h : Hit) (hnd : (st.map Prod.fst).Nodup) :
    ((mergeStep st h).map Prod.fst).Nodup := by
  rw [mergeStep_keys]
  split_ifs with hlk
  · simpa using hnd
  · rw [List.nodup_append]
    refine ⟨hnd, List.nodup_singleton _, ?_⟩
    intro a ha hae
    rw [List.mem_singleton] at hae
    subst hae
    rcases List.mem_map.mp ha with ⟨kv, hkv, hfst⟩
    rcases hlc : st.lookup (mergeKey h) with _ | v
    · exact lookup_none_not_key st (mergeKey h) hlc kv hkv hfst
    · rw [hlc] at hlk
      simp at hlk

theorem mergeFold_keys_nodup (hits : List Hit) :
    ∀ st : List ((String × String) × Merged), (st.map Prod.fst).Nodup →
      ((hits.foldl mergeStep st).map Prod.fst).Nodup := by
  induction hits with
  | nil => intro st h; exact h
  | cons h rest ih =>
    intro st hst
    exact ih _ (mergeStep_keys_nodup st h hst)

theorem mergeStep_nodup_defs (st : List ((String × String) × Merged))
    (h : Hit) (hseed : (pySplit '/' h.row.definitions).Nodup)
    (hst : ∀ kv ∈ st, kv.2.definition_list.Nodup) :
    ∀ kv ∈ mergeStep st h, kv.2.definition_list.Nodup := by
  intro kv hkv
  simp only [mergeStep] at hkv
  split_ifs at hkv with hlk
  · rcases List.mem_map.mp hkv with ⟨kv0, hkv0, heq⟩
    subst heq
    split
    · rw [mergeInto_def_list]
      exact addDefs_nodup _ _ (hst kv0 hkv0)
    · exact hst kv0 hkv0
  · rcases List.mem_append.mp hkv with hkv | hkv
    · exact hst kv hkv
    · rw [List.mem_singleton] at hkv
      subst hkv
      exact hseed

theorem mergeFold_nodup_defs (hits : List Hit) :
    ∀ st : List ((String × String) × Merged),
      (∀ hh ∈ hits, (pySplit '/' hh.row.definitions).Nodup) →
      (∀ kv ∈ st, kv.2.definition_list.Nodup) →
      ∀ kv ∈ hits.foldl mergeStep st, kv.2.definition_list.Nodup := by
  induction hits with
  | nil => intro st _ hst; exact hst
  | cons h rest ih =>
    intro st hnd hst
    apply ih
    · intro hh hmem
      exact hnd hh (List.mem_cons_of_mem _ hmem)
    · exact mergeStep_nodup_defs st h (hnd h (List.mem_cons_self _ _)) hst

theorem mergeStep_persist (st : List ((String × String) × Merged)) (h : Hit)
    (k : String × String) (m : Merged) (d : String)
    (hmem : (k, m) ∈ st) (hd : d ∈ m.definition_list) :
    ∃ m2, (k, m2) ∈ mergeStep st h ∧ d ∈ m2.definition_list := by
  simp only [mergeStep]
  split_ifs with hlk
  · by_cases hkey : k = mergeKey h
    · refine ⟨mergeInto m h, ?_, ?_⟩
      · have := List.mem_map_of_mem
          (fun kv => if kv.1 = mergeKey h then (kv.1, mergeInto kv.2 h) else kv)
          hmem
        simpa [hkey] using this
      · rw [mergeInto_def_list]
        exact addDefs_mono _ _ _ hd
    · refine ⟨m, ?_, hd⟩
      have := List.mem_map_of_mem
        (fun kv => if kv.1 = mergeKey h then (kv.1, mergeInto kv.2 h) else kv)
        hmem
      simpa [hkey] using this
  · exact ⟨m, List.mem_append_left _ hmem, hd⟩

theorem mergeFold_persist (hits : List Hit) :
    ∀ (st : List ((String × String) × Merged)) (k : String × String)
      (m : Merged) (d : String), (k, m) ∈ st → d ∈ m.definition_list →
      ∃ m2, (k, m2) ∈ hits.foldl mergeStep st ∧ d ∈ m2.definition_list := by
  induction hits with
  | nil => intro st k m d hmem hd; exact ⟨m, hmem, hd⟩
  | cons h rest ih =>
    intro st k m d hmem hd
    rcases mergeStep_persist st h k m d hmem hd with ⟨m2, hm2, hd2⟩
    exact ih _ k m2 d hm2 hd2

theorem mergeFold_hit_glosses (hits : List Hit) :
    ∀ (st : List ((String × String) × Merged)) (h : Hit), h ∈ hits →
      ∀ d ∈ pySplit '/' h.row.definitions, d ≠ "" →
      ∃ m2, (mergeKey h, m2) ∈ hits.foldl mergeStep st ∧
        d ∈ m2.definition_list := by
  induction hits with
  | nil => intro st h hmem; cases hmem
  | cons h0 rest ih =>
    intro st h hmem d hd hdne
    rcases List.mem_cons.mp hmem with rfl | hmem
    · rw [List.foldl_cons]
      rcases hlk : st.lookup (mergeKey h) with _ | v
      · have hstep : mergeStep st h = st ++ [(mergeKey h, seedMerged h)] := by
          simp [mergeStep, hlk]
        rw [hstep]
        apply mergeFold_persist rest _ (mergeKey h) (seedMerged h) d
        · exact List.mem_append_right _ (List.mem_singleton.mpr rfl)
        · exact hd
      · have hmemv : (mergeKey h, v) ∈ st := lookup_some_mem st _ v hlk
        have hstep : (mergeKey h, mergeInto v h) ∈ mergeStep st h := by
          have := List.mem_map_of_mem
            (fun kv => if kv.1 = mergeKey h then (kv.1, mergeInto kv.2 h) else kv)
            hmemv
          simp only [mergeStep, hlk]
          simpa using this
        apply mergeFold_persist rest _ (mergeKey h) (mergeInto v h) d hstep
        rw [mergeInto_def_list]
        exact addDefs_mem_new _ _ d hd hdne
    · rw [List.foldl_cons]
      exact ih _ h hmem d hd hdne

theorem dedupKeepFirst_congr (l : List String) :
    ∀ s1 s2 : List String, (∀ a, a ∈ s1 ↔ a ∈ s2) →
      dedupKeepFirst s1 l = dedupKeepFirst s2 l := by
  induction l with
  | nil => intro s1 s2 _; rfl
  | cons g gs ih =>
    intro s1 s2 h
    simp only [dedupKeepFirst]
    by_cases hg : g ∈ s1
    · rw [if_pos hg, if_pos ((h g).mp hg)]
      exact ih s1 s2 h
    · rw [if_neg hg, if_neg (fun hc => hg ((h g).mpr hc))]
      congr 1
      apply ih
      intro a
      simp only [List.mem_cons, h a]

theorem dedupKeepFirst_append (xs : List String) :
    ∀ (s ys : List String),
      dedupKeepFirst s (xs ++ ys) =
        dedupKeepFirst s xs ++ dedupKeepFirst (xs ++ s) ys := by
  induction xs with
  | nil => intro s ys; rfl
  | cons g gs ih =>
    intro s ys
    simp only [List.cons_append, dedupKeepFirst, List.append_eq]
    by_cases hg : g ∈ s
    · rw [if_pos hg, if_pos hg, ih]
      congr 1
      apply dedupKeepFirst_congr
      intro a
      simp only [List.cons_append, List.mem_cons, List.mem_append]
      constructor
      · tauto
      · rintro (rfl | h1 | h2)
        · exact Or.inr hg
        · exact Or.inl h1
        · exact Or.inr h2
    · rw [if_neg hg, if_neg hg, ih]
      simp only [List.cons_append]
      congr 1
      congr 1
      apply dedupKeepFirst_congr
      intro a
      simp only [List.mem_cons, List.mem_append]
      tauto

theorem dedupKeepFirst_of_nodup (l : List String) :
    ∀ seen, (∀ a ∈ l, a ∉ seen) → l.Nodup → dedupKeepFirst seen l = l := by
  induction l with
  | nil => intro seen _ _; rfl
  | cons g gs ih =>
    intro seen hdisj hnd
    rw [List.nodup_cons] at hnd
    simp only [dedupKeepFirst]
    rw [if_neg (hdisj g (List.mem_cons_self _ _))]
    congr 1
    apply ih
    · intro a ha hmem
      rcases List.mem_cons.mp hmem with rfl | hs
      · exact hnd.1 ha
      · exact hdisj a (List.mem_cons_of_mem _ ha) hs
    · exact hnd.2

theorem addDefs_subset (ds : List String) :
    ∀ l g, g ∈ addDefs l ds → g ∈ l ∨ (g ∈ ds ∧ g ≠ "") := by
  induction ds with
  | nil => intro l g h; exact Or.inl h
  | cons d ds ih =>
    intro l g h
    simp only [addDefs] at h
    rcases ih _ g h with hmem | ⟨hds, hne⟩
    · split_ifs at hmem with hcond
      · rcases List.mem_append.mp hmem with h1 | h1
        · exact Or.inl h1
        · rw [List.mem_singleton] at h1
          subst h1
          exact Or.inr ⟨List.mem_cons_self _ _, hcond.1⟩
      · exact Or.inl hmem
    · exact Or.inr ⟨List.mem_cons_of_mem _ hds, hne⟩

theorem addDefs_eq_append_dedup (ds : List String) :
    ∀ l, addDefs l ds =
      l ++ dedupKeepFirst l (ds.filter (fun d => d ≠ "")) := by
  induction ds with
  | nil => intro l; simp [addDefs, dedupKeepFirst]
  | cons d ds ih =>
    intro l
    simp only [addDefs]
    by_cases hne : d = ""
    · subst hne
      rw [if_neg (by simp)]
      rw [ih l]
      simp [List.filter_cons]
    · by_cases hmeml : d ∈ l
      · rw [if_neg (fun hc => hc.2 hmeml)]
        rw [ih l]
        congr 1
        rw [List.filter_cons, if_pos (by simpa using hne)]
        simp only [dedupKeepFirst]
        rw [if_pos hmeml]
      · rw [if_pos ⟨hne, hmeml⟩]
        rw [ih (l ++ [d])]
        rw [List.filter_cons, if_pos (by simpa using hne)]
        simp only [dedupKeepFirst]
        rw [if_neg hmeml, List.append_assoc, List.singleton_append]
        congr 2
        apply dedupKeepFirst_congr
        intro a
        simp only [List.mem_cons, List.mem_append, List.mem_singleton]
        tauto

theorem dedup_filter_sublist (ds : List String) :
    ∀ s1 s2 : List String, (∀ d : String, d ≠ "" → (d ∈ s1 ↔ d ∈ s2)) →
      (dedupKeepFirst s1 (ds.filter (fun d => d ≠ ""))).Sublist
        (dedupKeepFirst s2 ds) := by
  induction ds with
  | nil => intro s1 s2 _; exact List.nil_sublist _
  | cons d ds ih =>
    intro s1 s2 h
    by_cases hne : d = ""
    · subst hne
      rw [List.filter_cons]
      rw [if_neg (by simp)]
      simp only [dedupKeepFirst]
      split_ifs with hmem
      · exact ih s1 s2 h
      · refine List.Sublist.cons _ (ih s1 ("" :: s2) ?_)
        intro e he
        rw [h e he]
        simp [List.mem_cons, he]
    · rw [List.filter_cons, if_pos (by simpa using hne)]
      simp only [dedupKeepFirst]
      by_cases hmem : d ∈ s1
      · rw [if_pos hmem, if_pos ((h d hne).mp hmem)]
        exact ih s1 s2 h
      · rw [if_neg hmem, if_neg (fun hc => hmem ((h d hne).mpr hc))]
        refine List.Sublist.cons₂ _ (ih _ _ ?_)
        intro e he
        simp only [List.mem_cons, h e he]

theorem mergedDefsAux_concat (l : List String) (xs : List Hit) (h : Hit) :
    mergedDefsAux l (xs ++ [h]) = addDefs (mergedDefsAux l xs) (defsOf h) := by
  simp [mergedDefsAux, List.foldl_append]

theorem mergedDefsAux_nodup (hs : List Hit) :
    ∀ l, l.Nodup → (mergedDefsAux l hs).Nodup := by
  induction hs with
  | nil => intro l h; exact h
  | cons h hs ih =>
    intro l hl
    exact ih (addDefs l (defsOf h)) (addDefs_nodup _ _ hl)

theorem mergedDefsAux_props (hs : List Hit) :
    ∀ (l G : List String),
      l.Sublist (dedupKeepFirst [] G) →
      (∀ g ∈ l, g ∈ G) →
      (∀ g ∈ G, g ≠ "" → g ∈ l) →
      (mergedDefsAux l hs).Sublist
        (dedupKeepFirst [] (G ++ (hs.map defsOf).flatten)) ∧
      (∀ g ∈ mergedDefsAux l hs, g ∈ G ++ (hs.map defsOf).flatten) ∧
      (∀ g ∈ G ++ (hs.map defsOf).flatten, g ≠ "" → g ∈ mergedDefsAux l hs) := by
  induction hs with
  | nil =>
    intro l G hsub hup hdown
    simp only [List.map_nil, List.flatten_nil, List.append_nil]
    exact ⟨hsub, hup, hdown⟩
  | cons h hs ih =>
    intro l G hsub hup hdown
    have hstep_sub : (addDefs l (defsOf h)).Sublist
        (dedupKeepFirst [] (G ++ defsOf h)) := by
      rw [addDefs_eq_append_dedup, dedupKeepFirst_append]
      apply List.Sublist.append hsub
      have hGnil : dedupKeepFirst (G ++ []) (defsOf h) =
          dedupKeepFirst G (defsOf h) := by
        apply dedupKeepFirst_congr
        intro a
        simp
      rw [hGnil]
      apply dedup_filter_sublist
      intro d hd
      exact ⟨fun hl => hup d hl, fun hG => hdown d hG hd⟩
    have hstep_up : ∀ g ∈ addDefs l (defsOf h), g ∈ G ++ defsOf h := by
      intro g hg
      rcases addDefs_subset _ _ g hg with h1 | ⟨h1, _⟩
      · exact List.mem_append_left _ (hup g h1)
      · exact List.mem_append_right _ h1
    have hstep_down : ∀ g ∈ G ++ defsOf h, g ≠ "" → g ∈ addDefs l (defsOf h) := by
      intro g hg hne
      rcases List.mem_append.mp hg with h1 | h1
      · exact addDefs_mono _ _ g (hdown g h1 hne)
      · exact addDefs_mem_new _ _ g h1 hne
    have hres := ih (addDefs l (defsOf h)) (G ++ defsOf h) hstep_sub hstep_up
      hstep_down
    rw [List.map_cons, List.flatten_cons, ← List.append_assoc]
    exact hres

theorem mergedDefs_spec (h0 : Hit) (hs : List Hit)
    (hnd0 : (defsOf h0).Nodup) :
    (mergedDefs (h0 :: hs)).Nodup ∧
    (mergedDefs (h0 :: hs)).Sublist
      (dedupKeepFirst [] (((h0 :: hs).map defsOf).flatten)) ∧
    (∀ g ∈ mergedDefs (h0 :: hs), g ∈ ((h0 :: hs).map defsOf).flatten) ∧
    (∀ g ∈ ((h0 :: hs).map defsOf).flatten, g ≠ "" →
      g ∈ mergedDefs (h0 :: hs)) := by
  have hdd : dedupKeepFirst [] (defsOf h0) = defsOf h0 := by
    apply dedupKeepFirst_of_nodup _ _ _ hnd0
    intro a _ ha
    cases ha
  have hres := mergedDefsAux_props hs (defsOf h0) (defsOf h0)
    (by rw [hdd]) (fun g hg => hg) (fun g hg _ => hg)
  rcases hres with ⟨hsub, hup, hdown⟩
  refine ⟨mergedDefsAux_nodup hs _ hnd0, ?_, ?_, ?_⟩
  · rw [List.map_cons, List.flatten_cons]
    exact hsub
  · rw [List.map_cons, List.flatten_cons]
    exact hup
  · rw [List.map_cons, List.flatten_cons]
    exact hdown

theorem lookup_isSome_of_mem (st : List ((String × String) × Merged))
    (kv : (String × String) × Merged) (h : kv ∈ st) :
    (st.lookup kv.1).isSome = true := by
  induction st with
  | nil => cases h
  | cons kv0 rest ih =>
    rcases List.mem_cons.mp h with rfl | hmem
    · simp [List.lookup]
    · simp only [List.lookup]
      rcases hbe : kv.1 == kv0.1 with _ | _
      · simp only [hbe]
        exact ih hmem
      · simp [hbe]

theorem lookup_map_mergeInto_isSome (hh : Hit) (k : String × String) :
    ∀ st : List ((String × String) × Merged),
      (((st.map (fun kv =>
        if kv.1 = mergeKey hh then (kv.1, mergeInto kv.2 hh) else kv)).lookup
          k).isSome) =
        ((st.lookup k).isSome) := by
  intro st
  induction st with
  | nil => rfl
  | cons kv0 rest ih =>
    by_cases hk0 : kv0.1 = mergeKey hh
    · rw [List.map_cons, if_pos hk0]
      simp only [List.lookup]
      rcases hbe : k == kv0.1 with _ | _
      · simp only [hbe]
        exact ih
      · simp [hbe]
    · rw [List.map_cons, if_neg hk0]
      simp only [List.lookup]
      rcases hbe : k == kv0.1 with _ | _
      · simp only [hbe]
        exact ih
      · simp [hbe]

theorem lookup_append_some (l1 l2 : List ((String × String) × Merged))
    (k : String × String) (v : Merged) (h : l1.lookup k = some v) :
    (l1 ++ l2).lookup k = some v := by
  induction l1 with
  | nil => cases h
  | cons kv0 rest ih =>
    simp only [List.lookup] at h
    simp only [List.cons_append, List.lookup]
    rcases hbe : k == kv0.1 with _ | _
    · rw [hbe] at h
      simp only [hbe]
      exact ih h
    · rw [hbe] at h
      simp only [hbe]
      exact h

theorem lookup_append_none (l1 l2 : List ((String × String) × Merged))
    (k : String × String) (h : l1.lookup k = none) :
    (l1 ++ l2).lookup k = l2.lookup k := by
  induction l1 with
  | nil => rfl
  | cons kv0 rest ih =>
    simp only [List.lookup] at h
    simp only [List.cons_append, List.lookup]
    rcases hbe : k == kv0.1 with _ | _
    · rw [hbe] at h
      simp only [hbe]
      exact ih h
    · rw [hbe] at h
      cases h

theorem mergeFold_trace (hits : List Hit) :
    ∀ (st : List ((String × String) × Merged)) (P : List Hit),
      (∀ kv ∈ st, kv.2.definition_list =
        mergedDefs (P.filter (fun hh => mergeKey hh = kv.1))) →
      (∀ k : String × String, ((st.lookup k).isSome = true) ↔
        P.filter (fun hh => mergeKey hh = k) ≠ []) →
      (∀ kv ∈ hits.foldl mergeStep st,
        kv.2.definition_list =
          mergedDefs ((P ++ hits).filter (fun hh => mergeKey hh = kv.1))) ∧
      (∀ k : String × String,
        (((hits.foldl mergeStep st).lookup k).isSome = true) ↔
          (P ++ hits).filter (fun hh => mergeKey hh = k) ≠ []) := by
  induction hits with
  | nil =>
    intro st P hI1 hI2
    constructor
    · intro kv hkv
      simpa using hI1 kv hkv
    · intro k
      simpa using hI2 k
  | cons h rest ih =>
    intro st P hI1 hI2
    have hI1' : ∀ kv ∈ mergeStep st h, kv.2.definition_list =
        mergedDefs ((P ++ [h]).filter (fun hh => mergeKey hh = kv.1)) := by
      intro kv hkv
      rcases hsome : st.lookup (mergeKey h) with _ | v
      · have hstep : mergeStep st h = st ++ [(mergeKey h, seedMerged h)] := by
          simp [mergeStep, hsome]
        rw [hstep] at hkv
        rcases List.mem_append.mp hkv with hkv | hkv
        · have hne : kv.1 ≠ mergeKey h :=
            lookup_none_not_key st (mergeKey h) hsome kv hkv
          rw [List.filter_append]
          have hfe : [h].filter (fun hh => mergeKey hh = kv.1) = [] := by
            simp only [List.filter_cons, List.filter_nil]
            rw [if_neg (by simp; exact fun e => hne e.symm)]
          rw [hfe, List.append_nil]
          exact hI1 kv hkv
        · rw [List.mem_singleton] at hkv
          subst hkv
          show (seedMerged h).definition_list =
            mergedDefs ((P ++ [h]).filter (fun hh => mergeKey hh = mergeKey h))
          have hPf : P.filter (fun hh => mergeKey hh = mergeKey h) = [] := by
            by_contra hcon
            have := (hI2 (mergeKey h)).mpr hcon
            rw [hsome] at this
            simp at this
          rw [List.filter_append, hPf]
          have hfh : [h].filter (fun hh => mergeKey hh = mergeKey h) = [h] := by
            simp
          rw [hfh, List.nil_append]
          rfl
      · have hstep : mergeStep st h =
            st.map (fun kv0 =>
              if kv0.1 = mergeKey h then (kv0.1, mergeInto kv0.2 h) else kv0) := by
          simp [mergeStep, hsome]
        rw [hstep] at hkv
        rcases List.mem_map.mp hkv with ⟨kv0, hkv0, heq⟩
        by_cases hk0 : kv0.1 = mergeKey h
        · rw [if_pos hk0] at heq
          subst heq
          show (mergeInto kv0.2 h).definition_list =
            mergedDefs ((P ++ [h]).filter (fun hh => mergeKey hh = kv0.1))
          have hPne : P.filter (fun hh => mergeKey hh = kv0.1) ≠ [] := by
            apply (hI2 kv0.1).mp
            rw [hk0, hsome]
            rfl
          rcases List.exists_cons_of_ne_nil hPne with ⟨p0, ps, hPeq⟩
          have hfh : [h].filter (fun hh => mergeKey hh = kv0.1) = [h] := by
            simp [hk0]
          rw [List.filter_append, hPeq, hfh]
          rw [mergeInto_def_list, hI1 kv0 hkv0, hPeq]
          show addDefs (mergedDefsAux (defsOf p0) ps) (pySplit '/' h.row.definitions) =
            mergedDefs (p0 :: (ps ++ [h]))
          show addDefs (mergedDefsAux (defsOf p0) ps) (pySplit '/' h.row.definitions) =
            mergedDefsAux (defsOf p0) (ps ++ [h])
          rw [mergedDefsAux_concat]
          rfl
        · rw [if_neg hk0] at heq
          subst heq
          rw [List.filter_append]
          have hfe : [h].filter (fun hh => mergeKey hh = kv0.1) = [] := by
            simp only [List.filter_cons, List.filter_nil]
            rw [if_neg (by simp; exact fun e => hk0 e.symm)]
          rw [hfe, List.append_nil]
          exact hI1 kv0 hkv0
    have hI2' : ∀ k : String × String,
        (((mergeStep st h).lookup k).isSome = true) ↔
          (P ++ [h]).filter (fun hh => mergeKey hh = k) ≠ [] := by
      intro k
      have hfilter : ((P ++ [h]).filter (fun hh => mergeKey hh = k) ≠ []) ↔
          (P.filter (fun hh => mergeKey hh = k) ≠ [] ∨ mergeKey h = k) := by
        rw [List.filter_append]
        by_cases hc : mergeKey h = k
        · simp [hc]
        · simp [hc]
      rw [hfilter]
      rcases hsome : st.lookup (mergeKey h) with _ | v
      · have hstep : mergeStep st h = st ++ [(mergeKey h, seedMerged h)] := by
          simp [mergeStep, hsome]
        rw [hstep]
        by_cases hk : k = mergeKey h
        · subst hk
          constructor
          · intro _
            exact Or.inr rfl
          · intro _
            rw [lookup_append_none st _ _ hsome]
            simp [List.lookup]
        · constructor
          · intro hl
            rcases hstk : st.lookup k with _ | v2
            · rw [lookup_append_none st _ _ hstk] at hl
              simp only [List.lookup] at hl
              rcases hbe : k == mergeKey h with _ | _
              · rw [hbe] at hl
                simp [List.lookup] at hl
              · exact absurd (by simpa using hbe) hk
            · left
              apply (hI2 k).mp
              rw [hstk]
              rfl
          · rintro (hr | hr)
            · have := (hI2 k).mpr hr
              rcases hstk : st.lookup k with _ | v2
              · rw [hstk] at this
                simp at this
              · rw [lookup_append_some st _ _ _ hstk]
                rfl
            · exact absurd hr.symm hk
      · have hstep : mergeStep st h =
            st.map (fun kv0 =>
              if kv0.1 = mergeKey h then (kv0.1, mergeInto kv0.2 h) else kv0) := by
          simp [mergeStep, hsome]
        rw [hstep, lookup_map_mergeInto_isSome, hI2 k]
        constructor
        · exact Or.inl
        · rintro (hr | hr)
          · exact hr
          · subst hr
            apply (hI2 (mergeKey h)).mp
            rw [hsome]
            rfl
    have hres := ih (mergeStep st h) (P ++ [h]) hI1' hI2'
    constructor
    · intro kv hkv
      have := hres.1 kv hkv
      rw [List.append_assoc, List.singleton_append] at this
      exact this
    · intro k
      have := hres.2 k
      rw [List.append_assoc, List.singleton_append] at this
      exact this

/-! ### Claim C7: de-duplication of merged definition lists -/

/-- **C7 counterexample.** The de-duplication of `app.py` lines 133-136
runs only for hits merged *after* the seeding hit; the seed's own
definition list (line 126) is `definitions.split('/')` verbatim. A single
entry whose stored definitions are `"hello/hello"` therefore yields the
merged `definition_list` `["hello", "hello"]`: the gloss `"hello"` appears
twice, refuting the claim for duplicates within a single entry's stored
definitions. -/
theorem merged_gloss_dedup_cex :
    (mergeAll [dupHit]).map (fun kv => kv.2.definition_list) =
      [["hello", "hello"]] ∧
    ¬ (["hello", "hello"] : List String).Nodup := by
  constructor
  · decide
  · decide

/-- **C7 (amended).** For every merged result, `definition_list` is the
de-duplicated union of the glosses of the hits sharing its
`(simplified, lowercased pinyin_marks)` key, in order of first appearance,
*provided the seeding hit's stored definitions contain no internal
duplicate* (the counterexample shows such duplicates survive verbatim).
Formally, with `h0 :: hs` the hits carrying the key in discovery order:
`definition_list` equals the per-key merge fold; it is duplicate-free; it
is a sublist of the first-occurrence subsequence of the concatenated gloss
lists (so its glosses appear exactly in order of first appearance); it
contains nothing but glosses of those hits; and it contains every nonempty
gloss of every one of them (empty-string pieces contributed by later hits
are dropped by the merge loop's `if d` guard, while the seed's are kept —
the one asymmetry of the code). -/
theorem merged_gloss_union (hits : List Hit) (k : String × String)
    (m : Merged) (h0 : Hit) (hs : List Hit)
    (hmem : (k, m) ∈ mergeAll hits)
    (hfil : hits.filter (fun hh => mergeKey hh = k) = h0 :: hs)
    (hnd0 : (defsOf h0).Nodup) :
    m.definition_list = mergedDefs (h0 :: hs) ∧
    m.definition_list.Nodup ∧
    m.definition_list.Sublist
      (dedupKeepFirst [] (((h0 :: hs).map defsOf).flatten)) ∧
    (∀ g ∈ m.definition_list, g ∈ ((h0 :: hs).map defsOf).flatten) ∧
    (∀ g ∈ ((h0 :: hs).map defsOf).flatten, g ≠ "" →
      g ∈ m.definition_list) := by
  have htr := (mergeFold_trace hits [] []
    (by intro kv hkv; cases hkv)
    (by intro k2; simp [List.lookup])).1 (k, m) hmem
  have htr2 : m.definition_list =
      mergedDefs (hits.filter (fun hh => mergeKey hh = k)) := by
    simpa using htr
  rw [hfil] at htr2
  have hspec := mergedDefs_spec h0 hs hnd0
  refine ⟨htr2, ?_, ?_, ?_, ?_⟩
  · rw [htr2]
    exact hspec.1
  · rw [htr2]
    exact hspec.2.1
  · rw [htr2]
    exact hspec.2.2.1
  · intro g hg hne
    rw [htr2]
    exact hspec.2.2.2 g hg hne

/-- Witness for C7 on a one-hit merge: the seed's list is the de-duplicated
union of its own glosses in order. -/
theorem merged_gloss_union_witness :
    ((mergeKey sampleExactHit, seedMerged sampleExactHit) ∈
        mergeAll [sampleExactHit] ∧
      [sampleExactHit].filter
        (fun hh => mergeKey hh = mergeKey sampleExactHit) =
          sampleExactHit :: ([] : List Hit) ∧
      (defsOf sampleExactHit).Nodup) ∧
    ((seedMerged sampleExactHit).definition_list =
        mergedDefs (sampleExactHit :: []) ∧
      (seedMerged sampleExactHit).definition_list.Nodup ∧
      (seedMerged sampleExactHit).definition_list.Sublist
        (dedupKeepFirst []
          (((sampleExactHit :: ([] : List Hit)).map defsOf).flatten)) ∧
      (∀ g ∈ (seedMerged sampleExactHit).definition_list,
        g ∈ ((sampleExactHit :: ([] : List Hit)).map defsOf).flatten) ∧
      (∀ g ∈ ((sampleExactHit :: ([] : List Hit)).map defsOf).flatten,
        g ≠ "" → g ∈ (seedMerged sampleExactHit).definition_list)) :=
  ⟨⟨by decide, by decide, by decide⟩,
    merged_gloss_union [sampleExactHit] (mergeKey sampleExactHit)
      (seedMerged sampleExactHit) sampleExactHit [] (by decide) (by decide)
      (by decide)⟩

/-! ### Lemmas on the transliterator (for C2) -/

theorem firstIdxOf_some (c : Char) (l : List Char) :
    ∀ i, firstIdxOf c l = some i → i < l.length ∧ l.getD i ' ' = c := by
  induction l with
  | nil => intro i h; cases h
  | cons x rest ih =>
    intro i h
    simp only [firstIdxOf] at h
    split_ifs at h with hx
    · injection h with h
      subst h
      exact ⟨Nat.succ_pos _, by simpa using hx⟩
    · rcases hmap : firstIdxOf c rest with _ | j
      · rw [hmap] at h
        cases h
      · rw [hmap] at h
        simp only [Option.map_some'] at h
        injection h with h
        subst h
        rcases ih j hmap with ⟨h1, h2⟩
        exact ⟨Nat.succ_lt_succ h1, by simpa using h2⟩

theorem firstIdxOf_isSome_of_mem (c : Char) (l : List Char) (h : c ∈ l) :
    ∃ i, firstIdxOf c l = some i := by
  induction l with
  | nil => cases h
  | cons x rest ih =>
    simp only [firstIdxOf]
    split_ifs with hx
    · exact ⟨0, rfl⟩
    · rcases List.mem_cons.mp h with rfl | hm
      · exact absurd rfl hx
      · rcases ih hm with ⟨j, hj⟩
        exact ⟨j + 1, by rw [hj]; rfl⟩

theorem hasOU_mem (l : List Char) : hasOU l = true → 'o' ∈ l := by
  induction l using hasOU.induct with
  | case1 rest =>
    intro _
    exact List.mem_cons_self _ _
  | case2 x rest hne ih =>
    intro h
    simp only [hasOU] at h
    exact List.mem_cons_of_mem _ (ih h)
  | case3 =>
    intro h
    cases h

theorem lastVowelIdx_some (l : List Char) :
    ∀ i, lastVowelIdx l = some i →
      i < l.length ∧ isVowelClass (l.getD i ' ') = true := by
  induction l with
  | nil => intro i h; cases h
  | cons c rest ih =>
    intro i h
    simp only [lastVowelIdx] at h
    rcases hr : lastVowelIdx rest with _ | j
    · rw [hr] at h
      by_cases hv : isVowelClass c = true
      · rw [if_pos hv] at h
        injection h with h
        subst h
        exact ⟨Nat.succ_pos _, by simpa using hv⟩
      · rw [if_neg hv] at h
        cases h
    · rw [hr] at h
      injection h with h
      subst h
      rcases ih j hr with ⟨h1, h2⟩
      exact ⟨Nat.succ_lt_succ h1, by simpa using h2⟩

theorem lastVowelIdx_isSome (l : List Char) (c : Char) (hc : c ∈ l)
    (hv : isVowelClass c = true) : ∃ i, lastVowelIdx l = some i := by
  induction l with
  | nil => cases hc
  | cons x rest ih =>
    simp only [lastVowelIdx]
    rcases hr : lastVowelIdx rest with _ | j
    · rcases List.mem_cons.mp hc with rfl | hm
      · rw [if_pos hv]
        exact ⟨0, rfl⟩
      · rcases ih hm with ⟨j, hj⟩
        rw [hj] at hr
        cases hr
    · exact ⟨j + 1, rfl⟩

theorem findMarkIdx_spec (l : List Char) (i : Nat)
    (h : findMarkIdx l = some i) :
    i < l.length ∧ isVowelClass (l.getD i ' ') = true := by
  rcases ha : firstIdxOf 'a' l with _ | ia
  · rcases he : firstIdxOf 'e' l with _ | ie2
    · simp only [findMarkIdx, ha, he] at h
      split_ifs at h with hou
      · rcases firstIdxOf_some 'o' l i h with ⟨h1, h2⟩
        refine ⟨h1, ?_⟩
        rw [h2]
        decide
      · exact lastVowelIdx_some l i h
    · simp only [findMarkIdx, ha, he] at h
      injection h with h
      subst h
      rcases firstIdxOf_some 'e' l _ he with ⟨h1, h2⟩
      refine ⟨h1, ?_⟩
      rw [h2]
      decide
  · simp only [findMarkIdx, ha] at h
    injection h with h
    subst h
    rcases firstIdxOf_some 'a' l _ ha with ⟨h1, h2⟩
    refine ⟨h1, ?_⟩
    rw [h2]
    decide

theorem findMarkIdx_isSome (l : List Char) (c : Char) (hc : c ∈ l)
    (hv : isVowelClass c = true) : ∃ i, findMarkIdx l = some i := by
  rcases ha : firstIdxOf 'a' l with _ | ia
  · rcases he : firstIdxOf 'e' l with _ | ie2
    · by_cases hou : hasOU l = true
      · rcases firstIdxOf_isSome_of_mem 'o' l (hasOU_mem l hou) with ⟨io, ho⟩
        refine ⟨io, ?_⟩
        simp only [findMarkIdx, ha, he, hou, if_true]
        exact ho
      · rcases lastVowelIdx_isSome l c hc hv with ⟨j, hj⟩
        refine ⟨j, ?_⟩
        simp only [findMarkIdx, ha, he]
        rw [if_neg hou]
        exact hj
    · exact ⟨ie2, by simp only [findMarkIdx, ha, he]⟩
  · exact ⟨ia, by simp only [findMarkIdx, ha]⟩

theorem mem_replaceLowerU (l : List Char) :
    ∀ c, c ∈ replaceLowerU l → c ∈ l ∨ c = 'ü' := by
  induction l using replaceLowerU.induct with
  | case1 rest ih =>
    intro c h
    simp only [replaceLowerU] at h
    rcases List.mem_cons.mp h with rfl | h
    · right; rfl
    · rcases ih c h with h | h
      · left
        exact List.mem_cons_of_mem _ (List.mem_cons_of_mem _ h)
      · right; exact h
  | case2 c0 rest hne ih =>
    intro c h
    simp only [replaceLowerU] at h
    rcases List.mem_cons.mp h with rfl | h
    · left
      exact List.mem_cons_self _ _
    · rcases ih c h with h | h
      · left
        exact List.mem_cons_of_mem _ h
      · right; exact h
  | case3 =>
    intro c h
    simp [replaceLowerU] at h

theorem mem_replaceUpperU (l : List Char) :
    ∀ c, c ∈ replaceUpperU l → c ∈ l ∨ c = 'Ü' := by
  induction l using replaceUpperU.induct with
  | case1 rest ih =>
    intro c h
    simp only [replaceUpperU] at h
    rcases List.mem_cons.mp h with rfl | h
    · right; rfl
    · rcases ih c h with h | h
      · left
        exact List.mem_cons_of_mem _ (List.mem_cons_of_mem _ h)
      · right; exact h
  | case2 c0 rest hne ih =>
    intro c h
    simp only [replaceUpperU] at h
    rcases List.mem_cons.mp h with rfl | h
    · left
      exact List.mem_cons_self _ _
    · rcases ih c h with h | h
      · left
        exact List.mem_cons_of_mem _ h
      · right; exact h
  | case3 =>
    intro c h
    simp [replaceUpperU] at h

theorem mem_rewriteUmlauts (l : List Char) :
    ∀ c, c ∈ rewriteUmlauts l → c ∈ l ∨ c = 'ü' ∨ c = 'Ü' := by
  intro c h
  rcases mem_replaceUpperU _ c h with h | rfl
  · rcases mem_replaceLowerU _ c h with h | rfl
    · exact Or.inl h
    · exact Or.inr (Or.inl rfl)
  · exact Or.inr (Or.inr rfl)

theorem isToneMarked_false_of_source (c : Char)
    (hc : c.toNat < 128 ∨ c = 'ü' ∨ c = 'Ü') : isToneMarked c = false := by
  rcases hc with hc | rfl | rfl
  · by_contra hmt
    rw [Bool.not_eq_false] at hmt
    have hmem : c ∈ markedVowels := by simpa [isToneMarked] using hmt
    have hall : markedVowels.all (fun x => decide (128 ≤ x.toNat)) = true := by
      decide
    have := List.all_eq_true.mp hall c hmem
    rw [decide_eq_true_eq] at this
    omega
  · decide
  · decide

theorem toneRow_isSome (c : Char) (hv : isVowelClass c = true) :
    ∃ row, toneRow (pyLower c) = some row := by
  have hmem : pyLower c ∈ vowelChars := by
    simpa [isVowelClass] using hv
  simp only [vowelChars, List.mem_cons, List.mem_singleton,
    List.not_mem_nil, or_false] at hmem
  rcases hmem with h | h | h | h | h | h | h <;> rw [h] <;> exact ⟨_, rfl⟩

theorem vowel_ascii_mem :
    ∀ n, n < 128 → isVowelClass (Char.ofNat n) = true →
      Char.ofNat n ∈ vowelClassGlyphs := by
  decide

theorem vowel_glyph_facts :
    ∀ c ∈ vowelClassGlyphs, ∀ t ∈ [(1 : Nat), 2, 3, 4],
      isToneMarked (markChar c t) = true ∧
        isUpperVowel (markChar c t) = isUpperVowel c := by
  decide

theorem markChar_facts (c : Char)
    (hs : c.toNat < 128 ∨ c = 'ü' ∨ c = 'Ü')
    (hv : isVowelClass c = true) (t : Nat)
    (ht : t = 1 ∨ t = 2 ∨ t = 3 ∨ t = 4) :
    isToneMarked (markChar c t) = true ∧
      isUpperVowel (markChar c t) = isUpperVowel c := by
  have hmem : c ∈ vowelClassGlyphs := by
    rcases hs with hs | rfl | rfl
    · have hofn := vowel_ascii_mem c.toNat hs
      rw [Char.ofNat_toNat] at hofn
      exact hofn hv
    · decide
    · decide
  apply vowel_glyph_facts c hmem t
  rcases ht with rfl | rfl | rfl | rfl <;> decide

theorem countMarked_set_one (l : List Char) (i : Nat) (x : Char)
    (hl : ∀ a ∈ l, isToneMarked a = false) (hi : i < l.length)
    (hx : isToneMarked x = true) : countMarked (l.set i x) = 1 := by
  unfold countMarked
  rw [List.countP_set _ _ _ _ hi]
  have h0 : l.countP isToneMarked = 0 :=
    List.countP_eq_zero.mpr (by intro a ha; simp [hl a ha])
  rw [h0, hx]
  have hnoti : isToneMarked l[i] = false := hl _ (List.getElem_mem hi)
  rw [hnoti]
  simp

theorem decode_ex_nihao : decode_pinyin "ni3 hao3" = "nǐ hǎo" := by decide

theorem decode_ex_lu : decode_pinyin "lu:4" = "lǜ" := by decide

theorem decode_ex_zhongguo : decode_pinyin "zhong1 guo2" = "zhōng guó" := by
  decide

/-! ### Claim C2: tone marking for tones 1-4 -/

/-- **C2 counterexample.** The syllable `m2` has trailing digit `2`, yet
`decode_pinyin` places *no* diacritic on it: its base `m` contains no
vowel-class character, the index search of lines 50-64 stays at −1, and
the syllable is emitted as the bare `m` with zero tone marks — not
"exactly one". (Such syllables occur in CC-CEDICT, e.g. 呣 `m2`.) -/
theorem decode_tone_mark_cex :
    decodeWord "m2".toList = "m".toList ∧
    decode_pinyin "m2" = "m" ∧
    countMarked (decodeWord "m2".toList) = 0 := by
  refine ⟨by decide, by decide, by decide⟩

/-- **C2 (amended).** For every syllable `b ++ [d]` whose trailing digit
`d` is in {1,2,3,4}, made of ASCII characters, *and whose base (after the
`u:`→`ü` rewrite) contains at least one vowel-class character*,
`decode_pinyin`'s word routine places exactly one diacritic: the output is
the rewritten base with precisely the character at the index chosen by the
priority rule (`findMarkIdx`: first `a`, else first `e`, else the first `o`
when the digraph `ou` occurs, else the last vowel-class character from the
end)
replaced by its tone-marked form, the marked character matches the case of
the original letter, and the output contains exactly one tone-marked
character. The claim's concrete examples hold as stated. -/
theorem decode_tone_mark (b : List Char) (d : Char)
    (hd : d = '1' ∨ d = '2' ∨ d = '3' ∨ d = '4')
    (hascii : ∀ c ∈ b, c.toNat < 128)
    (hvow : ∃ c ∈ rewriteUmlauts b, isVowelClass c = true) :
    (∃ i, findMarkIdx (rewriteUmlauts b) = some i ∧
      i < (rewriteUmlauts b).length ∧
      decodeWord (b ++ [d]) =
        (rewriteUmlauts b).set i
          (markChar ((rewriteUmlauts b).getD i ' ') (d.toNat - 48)) ∧
      isToneMarked
        (markChar ((rewriteUmlauts b).getD i ' ') (d.toNat - 48)) = true ∧
      countMarked (decodeWord (b ++ [d])) = 1 ∧
      isUpperVowel (markChar ((rewriteUmlauts b).getD i ' ') (d.toNat - 48)) =
        isUpperVowel ((rewriteUmlauts b).getD i ' ')) ∧
    decode_pinyin "ni3 hao3" = "nǐ hǎo" ∧
    decode_pinyin "lu:4" = "lǜ" ∧
    decode_pinyin "zhong1 guo2" = "zhōng guó" := by
  obtain ⟨cv, hcvmem, hcvv⟩ := hvow
  obtain ⟨i, hi⟩ := findMarkIdx_isSome _ cv hcvmem hcvv
  obtain ⟨hilen, hiv⟩ := findMarkIdx_spec _ i hi
  have htone : d.isDigit = true := by
    rcases hd with rfl | rfl | rfl | rfl <;> decide
  have ht14 : d.toNat - 48 = 1 ∨ d.toNat - 48 = 2 ∨ d.toNat - 48 = 3 ∨
      d.toNat - 48 = 4 := by
    rcases hd with rfl | rfl | rfl | rfl
    · exact Or.inl (by decide)
    · exact Or.inr (Or.inl (by decide))
    · exact Or.inr (Or.inr (Or.inl (by decide)))
    · exact Or.inr (Or.inr (Or.inr (by decide)))
  have hg1 : (decide (d.toNat - 48 < 1) || decide (d.toNat - 48 > 5)) = false := by
    rcases ht14 with h | h | h | h <;> rw [h] <;> decide
  have hg2 : ¬(d.toNat - 48 = 5) := by omega
  have hdw : decodeWord (b ++ [d]) =
      applyToneAt (rewriteUmlauts b) (d.toNat - 48) := by
    simp only [decodeWord, List.getLast?_concat, htone, if_true,
      List.dropLast_concat, hg1, Bool.false_eq_true, if_false, hg2]
  obtain ⟨row, hrow⟩ := toneRow_isSome _ hiv
  have happ : applyToneAt (rewriteUmlauts b) (d.toNat - 48) =
      (rewriteUmlauts b).set i
        (markRepl ((rewriteUmlauts b).getD i ' ') row (d.toNat - 48)) := by
    simp only [applyToneAt, hi, hrow]
  have hmc : markChar ((rewriteUmlauts b).getD i ' ') (d.toNat - 48) =
      markRepl ((rewriteUmlauts b).getD i ' ') row (d.toNat - 48) := by
    simp only [markChar, hrow]
  have hBsrc : ∀ a ∈ rewriteUmlauts b, a.toNat < 128 ∨ a = 'ü' ∨ a = 'Ü' := by
    intro a ha
    rcases mem_rewriteUmlauts b a ha with h | h | h
    · exact Or.inl (hascii a h)
    · exact Or.inr (Or.inl h)
    · exact Or.inr (Or.inr h)
  have hgetmem : (rewriteUmlauts b).getD i ' ' ∈ rewriteUmlauts b := by
    rw [List.getD_eq_getElem _ _ hilen]
    exact List.getElem_mem hilen
  obtain ⟨hmarked, hcase⟩ :=
    markChar_facts ((rewriteUmlauts b).getD i ' ') (hBsrc _ hgetmem) hiv
      (d.toNat - 48) ht14
  refine ⟨⟨i, hi, hilen, ?_, hmarked, ?_, hcase⟩,
    decode_ex_nihao, decode_ex_lu, decode_ex_zhongguo⟩
  · rw [hdw, happ, hmc]
  · rw [hdw, happ]
    apply countMarked_set_one
    · intro a ha
      exact isToneMarked_false_of_source a (hBsrc a ha)
    · exact hilen
    · rw [← hmc]
      exact hmarked

/-- Witness for C2 at the concrete syllable `hao3`. -/
theorem decode_tone_mark_witness :
    (('3' = '1' ∨ '3' = '2' ∨ '3' = '3' ∨ '3' = '4') ∧
      (∀ c ∈ "hao".toList, c.toNat < 128) ∧
      (∃ c ∈ rewriteUmlauts "hao".toList, isVowelClass c = true)) ∧
    ((∃ i, findMarkIdx (rewriteUmlauts "hao".toList) = some i ∧
      i < (rewriteUmlauts "hao".toList).length ∧
      decodeWord ("hao".toList ++ ['3']) =
        (rewriteUmlauts "hao".toList).set i
          (markChar ((rewriteUmlauts "hao".toList).getD i ' ')
            ('3'.toNat - 48)) ∧
      isToneMarked
        (markChar ((rewriteUmlauts "hao".toList).getD i ' ')
          ('3'.toNat - 48)) = true ∧
      countMarked (decodeWord ("hao".toList ++ ['3'])) = 1 ∧
      isUpperVowel
        (markChar ((rewriteUmlauts "hao".toList).getD i ' ')
          ('3'.toNat - 48)) =
        isUpperVowel ((rewriteUmlauts "hao".toList).getD i ' ')) ∧
    decode_pinyin "ni3 hao3" = "nǐ hǎo" ∧
    decode_pinyin "lu:4" = "lǜ" ∧
    decode_pinyin "zhong1 guo2" = "zhōng guó") :=
  ⟨⟨by decide, by decide, by decide⟩,
    decode_tone_mark "hao".toList '3' (by decide) (by decide) (by decide)⟩

end ShuMao
